import Mathlib

/-!
Verification of the two locale-maintenance scripts of this repository:
`compare_i18n.py` (key-set differencer) and `update_vocab_locales.py`
(locale merger).  Locale trees (parsed JSON objects) are embedded as
association lists in insertion order, mirroring Python `dict` semantics;
JSON scalars at the leaves are strings (`JVal.leaf (some s)`) or `null`
(`JVal.leaf none`).  Fallible Python code (exceptions) is embedded with
`Option` / `Except` results.
-/

/-- A parsed JSON value as the scripts see it: either a leaf scalar
(a string, or `none` for JSON `null`) or a nested object. -/
inductive JVal where
  | leaf : Option String → JVal
  | obj : List (String × JVal) → JVal

/-- A parsed JSON object: a Python `dict` in insertion order. -/
abbrev Obj := List (String × JVal)

/-- Python `d[key]` / `d.get(key)` on a dict kept in insertion order. -/
def dictGet {α : Type} : List (String × α) → String → Option α
  | [], _ => none
  | (k, v) :: rest, key => if k = key then some v else dictGet rest key

/-- Python `d[key] = v` on a dict: update in place when the key exists,
append at the end otherwise. -/
def dictSet {α : Type} : List (String × α) → String → α → List (String × α)
  | [], key, v => [(key, v)]
  | (k, w) :: rest, key, v =>
    if k = key then (k, v) :: rest else (k, w) :: dictSet rest key v

mutual

/-- One iteration step of `get_keys` (src/compare_i18n.py lines 10-14):
`isinstance(v, dict)` recurses with the extended dotted prefix, any other
value contributes `prefix + k` itself. -/
def get_keys_val : String → JVal → String → Finset String
  | k, JVal.leaf _, pfx => {pfx ++ k}
  | k, JVal.obj sub, pfx => get_keys sub (pfx ++ k ++ ".")

/-- `get_keys` from src/compare_i18n.py lines 8-15: flatten a locale tree
into the set of dotted key paths of its leaves. -/
def get_keys : Obj → String → Finset String
  | [], _ => ∅
  | (k, v) :: rest, pfx => get_keys_val k v pfx ∪ get_keys rest pfx

end

/-- `report_missing` from src/compare_i18n.py lines 27-31: the printed
report is the count of `en_keys - lang_keys` followed by its elements
sorted ascending. -/
def report_missing (lang_keys en_keys : Finset String) : Nat × List String :=
  ((en_keys \ lang_keys).card, (en_keys \ lang_keys).sort (· ≤ ·))

/-- `set_deep` from src/update_vocab_locales.py lines 4-7.  The Python
loop runs `d = d.setdefault(key, {})` over `keys[:-1]` and then assigns
`d[keys[-1]] = value`.  `none` models the raised exception: `IndexError`
for an empty key list, `AttributeError`/`TypeError` when a walked key is
bound to a non-dict value. -/
def set_deep : Obj → List String → JVal → Option Obj
  | _, [], _ => none
  | d, [k], v => some (dictSet d k v)
  | d, k :: k2 :: ks, v =>
    match dictGet d k with
    | some (JVal.leaf _) => none
    | some (JVal.obj sub) =>
      (set_deep sub (k2 :: ks) v).map (fun sub2 => dictSet d k (JVal.obj sub2))
    | none =>
      (set_deep [] (k2 :: ks) v).map (fun sub2 => dictSet d k (JVal.obj sub2))

/-- Python `str.split('.')` at the character-list level: always returns at
least one (possibly empty) segment. -/
def splitDotL : List Char → List (List Char)
  | [] => [[]]
  | c :: rest =>
    if c = '.' then [] :: splitDotL rest
    else
      match splitDotL rest with
      | [] => [[c]]
      | w :: ws => (c :: w) :: ws

/-- Python `key.split('.')` (src/update_vocab_locales.py line 84). -/
def splitDot (s : String) : List String :=
  (splitDotL s.data).map (fun l => String.mk l)

/-- `translations.get(lang, translations.get('en'))`
(src/update_vocab_locales.py line 85): the per-language value with
fallback to the default language `en`; `none` when both are absent. -/
def tr_get (translations : List (String × String)) (lang : String) : Option String :=
  match dictGet translations lang with
  | some v => some v
  | none => dictGet translations "en"

/-- One iteration of the merge loop (src/update_vocab_locales.py lines
83-86): resolve the value for `lang`, split the dotted key, deep-set. -/
def apply_entry (lang : String) (d : Obj) (e : String × List (String × String)) :
    Option Obj :=
  set_deep d (splitDot e.1) (JVal.leaf (tr_get e.2 lang))

/-- The fixed entry table `new_keys_flat`
(src/update_vocab_locales.py lines 13-74), in source order. -/
def new_keys_flat : List (String × List (String × String)) :=
  [ ("vocab.flashcard", [("en", "Flashcard"), ("zh", "单词卡"), ("vi", "Thẻ từ"), ("mn", "Үгсийн карт")]),
    ("vocab.quiz", [("en", "Quiz"), ("zh", "测验"), ("vi", "Trắc nghiệm"), ("mn", "Шалгалт")]),
    ("vocab.match", [("en", "Match"), ("zh", "配对"), ("vi", "Ghép cặp"), ("mn", "Хослох")]),
    ("vocab.quickStudy", [("en", "Quick Study"), ("zh", "速记"), ("vi", "Học nhanh"), ("mn", "Түргэн сурах")]),
    ("vocab.currentScope", [("en", "Current Scope"), ("zh", "当前范围"), ("vi", "Phạm vi hiện tại"), ("mn", "Одоогийн хамрах хүрээ")]),
    ("vocab.allUnits", [("en", "All Units"), ("zh", "全部单元"), ("vi", "Tất cả các bài"), ("mn", "Бүх бүлгүүд")]),
    ("vocab.unit", [("en", "Unit"), ("zh", "单元"), ("vi", "Bài"), ("mn", "Бүлэг")]),
    ("vocab.mastery", [("en", "Mastery"), ("zh", "掌握度"), ("vi", "Độ thông thạo"), ("mn", "Эзэмшилт")]),
    ("vocab.noWords", [("en", "No Words"), ("zh", "暂无单词"), ("vi", "Không có từ"), ("mn", "Үг байхгүй")]),
    ("vocab.noWordsDesc", [("en", "No vocabulary content added yet."), ("zh", "尚未添加词汇内容。"), ("vi", "Chưa có nội dung từ vựng nào."), ("mn", "Үгсийн санг нэмээгүй байна.")]),
    ("vocab.settings", [("en", "Settings"), ("zh", "设置"), ("vi", "Cài đặt"), ("mn", "Тохиргоо")]),
    ("vocab.autoPlay", [("en", "Auto Play Audio"), ("zh", "自动播放发音"), ("vi", "Tự động phát âm thanh"), ("mn", "Дуу автоматаар тоглуулах")]),
    ("vocab.cardFront", [("en", "Card Front"), ("zh", "卡片正面"), ("vi", "Mặt trước thẻ"), ("mn", "Картын нүүр")]),
    ("vocab.koreanFront", [("en", "Korean Front"), ("zh", "韩语显示在正面"), ("vi", "Tiếng Hàn mặt trước"), ("mn", "Солонгос хэл нүүрэн талд")]),
    ("vocab.meaningFront", [("en", "Meaning Front"), ("zh", "含义显示在正面"), ("vi", "Nghĩa mặt trước"), ("mn", "Утга нүүрэн талд")]),
    ("vocab.sessionComplete", [("en", "Session Complete!"), ("zh", "本次学习完成！"), ("vi", "Hoàn thành buổi học!"), ("mn", "Сургалт дууслаа!")]),
    ("vocab.wordsUnit", [("en", "words"), ("zh", "个单词"), ("vi", "từ"), ("mn", "үг")]),
    ("vocab.remembered", [("en", "Remembered"), ("zh", "认识"), ("vi", "Đã nhớ"), ("mn", "Мэднэ")]),
    ("vocab.forgot", [("en", "Forgot"), ("zh", "没记住"), ("vi", "Quên"), ("mn", "Мэдэхгүй")]),
    ("vocab.restart", [("en", "Restart"), ("zh", "重新开始"), ("vi", "Bắt đầu lại"), ("mn", "Дахин эхлүүлэх")]),
    ("vocab.flip", [("en", "Flip"), ("zh", "翻转"), ("vi", "Lật"), ("mn", "Эргүүлэх")]),
    ("vocab.shortcuts", [("en", "Shortcuts"), ("zh", "快捷键"), ("vi", "Phím tắt"), ("mn", "Товчлуур")]),
    ("vocab.redSheet", [("en", "Red Sheet"), ("zh", "红膜模式"), ("vi", "Chế độ tấm đỏ"), ("mn", "Улаан хальс")]),
    ("vocab.loop", [("en", "Loop"), ("zh", "循环"), ("vi", "Lặp lại"), ("mn", "Давтах")]),
    ("vocab.stop", [("en", "Stop"), ("zh", "停止"), ("vi", "Dừng"), ("mn", "Зогсоох")]),
    ("vocab.noExample", [("en", "Example pending"), ("zh", "暂无例句"), ("vi", "Đang cập nhật ví dụ"), ("mn", "Жишээ байхгүй")]),
    ("vocab.reveal", [("en", "Click to reveal"), ("zh", "点击显示"), ("vi", "Nhấn để hiển thị"), ("mn", "Дарж харах")]),
    ("vocab.new", [("en", "New"), ("zh", "新"), ("vi", "Mới"), ("mn", "Шинэ")]),
    ("vocab.learning", [("en", "Learning"), ("zh", "学习中"), ("vi", "Đang học"), ("mn", "Суралцаж буй")]),
    ("vocab.review", [("en", "Review"), ("zh", "复习"), ("vi", "Ôn tập"), ("mn", "Давтах")]),
    ("vocab.dueNow", [("en", "Due Now"), ("zh", "待复习"), ("vi", "Cần ôn tập"), ("mn", "Давтах ёстой")]),
    ("vocab.totalWords", [("en", "Total"), ("zh", "总计"), ("vi", "Tổng số"), ("mn", "Нийт")]),
    ("vocab.search", [("en", "Search words..."), ("zh", "搜索生词..."), ("vi", "Tìm kiếm từ..."), ("mn", "Үг хайх...")]),
    ("vocab.noMatch", [("en", "No results"), ("zh", "未找到匹配项"), ("vi", "Không tìm thấy kết quả"), ("mn", "Илэрц олдсонгүй")]),
    ("vocab.noDueNow", [("en", "No words due"), ("zh", "没有待复习的生词"), ("vi", "Không có từ cần ôn tập"), ("mn", "Давтах үг байхгүй")]),
    ("vocab.srsDesc", [("en", "Words you pick as \x27Don\x27t know\x27 will appear here"), ("zh", "学习中选择“不认识”的单词会出现在这里"), ("vi", "Những từ bạn chọn \x27Không biết\x27 sẽ xuất hiện ở đây"), ("mn", "\x27Мэдэхгүй\x27 гэж тэмдэглэсэн үгс энд харагдана")]),
    ("vocab.streak", [("en", "streak"), ("zh", "次"), ("vi", "lần"), ("mn", "удаа")]),
    ("vocab.streakCount", [("en", "{count} streak"), ("zh", "连续 {count} 次"), ("vi", "{count} lần liên tiếp"), ("mn", "{count} удаа дараалан")]),
    ("vocab.daysLater", [("en", "{count}d later"), ("zh", "{count}天后"), ("vi", "{count} ngày sau"), ("mn", "{count} өдрийн дараа")]),
    ("vocab.hoursLater", [("en", "{count}h later"), ("zh", "{count}小时后"), ("vi", "{count} giờ sau"), ("mn", "{count} цагийн дараа")]),
    ("vocab.hanja", [("en", "Hanja"), ("zh", "汉字"), ("vi", "Hán tự"), ("mn", "Хятад ханз")]),
    ("vocab.matchTitle", [("en", "Perfect Match!"), ("zh", "完美配对！"), ("vi", "Ghép cặp hoàn hảo!"), ("mn", "Төгс хослол!")]),
    ("vocab.matchDesc", [("en", "You matched all words!"), ("zh", "你成功匹配了所有单词！"), ("vi", "Bạn đã ghép được tất cả các từ!"), ("mn", "Та бүх үгийг амжилттай хослууллаа!")]),
    ("vocab.time", [("en", "Time"), ("zh", "用时"), ("vi", "Thời gian"), ("mn", "Хугацаа")]),
    ("vocab.moves", [("en", "Moves"), ("zh", "步数"), ("vi", "Số bước"), ("mn", "Нүүдэл")]),
    ("vocab.pairs", [("en", "Pairs"), ("zh", "对"), ("vi", "Cặp"), ("mn", "Хос")]),
    ("vocab.minWordsMatch", [("en", "Need at least {count} words to start matching game"), ("zh", "需要至少 {count} 个单词才能开始配对游戏"), ("vi", "Cần ít nhất {count} từ để bắt đầu trò chơi ghép cặp"), ("mn", "Хослох тоглоомыг эхлүүлэхийн тулд дор хаяж {count} үг шаардлагатай")]),
    ("vocab.pos.verb_t", [("en", "Transitive Verb"), ("zh", "及物动词"), ("vi", "Tha động từ"), ("mn", "Тусах үйл үг")]),
    ("vocab.pos.verb_i", [("en", "Intransitive Verb"), ("zh", "不及物动词"), ("vi", "Tự động từ"), ("mn", "Эс тусах үйл үг")]),
    ("vocab.pos.adj", [("en", "Adjective"), ("zh", "形容词"), ("vi", "Tính từ"), ("mn", "Тэмдэг нэр")]),
    ("vocab.pos.noun", [("en", "Noun"), ("zh", "名词"), ("vi", "Danh từ"), ("mn", "Нэр үг")]),
    ("vocab.pos.adv", [("en", "Adverb"), ("zh", "副词"), ("vi", "Trạng từ"), ("mn", "Дайвар үг")]),
    ("vocab.pos.particle", [("en", "Particle"), ("zh", "助词"), ("vi", "Trợ từ"), ("mn", "Нөхцөл")]) ]

/-- The in-memory update of one language's tree
(src/update_vocab_locales.py lines 83-86): every table entry applied in
order; `none` when a `set_deep` raises. -/
def update_tree (lang : String) (d : Obj) : Option Obj :=
  new_keys_flat.foldlM (apply_entry lang) d

/-- The fixed supported language list (src/update_vocab_locales.py line 11;
the same four files are loaded by src/compare_i18n.py lines 17-20). -/
def langs : List String := ["en", "zh", "vi", "mn"]

/-- `os.path.join('locales', f'{lang}.json')`. -/
def locale_path (lang : String) : String := "locales/" ++ lang ++ ".json"

/-- What the scripts can find on disk at a path: a file parsing to a JSON
object, or a file whose parse fails. -/
inductive FileData where
  | valid : Obj → FileData
  | invalid : FileData

/-- The file system as the scripts observe it: the association of existing
paths to their contents. -/
abbrev Disk := List (String × FileData)

/-- The error outcomes terminating a run: `FileNotFoundError` from `open`,
`json.JSONDecodeError` from `json.load`, and the `TypeError` /
`AttributeError` a `set_deep` step can raise. -/
inductive RunErr where
  | fileNotFound : String → RunErr
  | parseError : String → RunErr
  | typeError : RunErr

/-- `load_json` from src/compare_i18n.py lines 4-6: unhandled `open` /
`json.load` failures propagate. -/
def load_json (disk : Disk) (path : String) : Except RunErr Obj :=
  match dictGet disk path with
  | none => Except.error (RunErr.fileNotFound path)
  | some FileData.invalid => Except.error (RunErr.parseError path)
  | some (FileData.valid d) => Except.ok d

/-- The top-level run of src/compare_i18n.py (lines 17-35): load the four
locale files, flatten each, and report the missing keys of `zh`, `vi`,
`mn` against `en`, in that order. -/
def compare_main (disk : Disk) : Except RunErr (List (String × (Nat × List String))) := do
  let en ← load_json disk (locale_path "en")
  let zh ← load_json disk (locale_path "zh")
  let vi ← load_json disk (locale_path "vi")
  let mn ← load_json disk (locale_path "mn")
  let en_keys := get_keys en ""
  pure [("zh", report_missing (get_keys zh "") en_keys),
        ("vi", report_missing (get_keys vi "") en_keys),
        ("mn", report_missing (get_keys mn "") en_keys)]

/-- One iteration of the language loop of `update_locales`
(src/update_vocab_locales.py lines 76-90): skip silently when the file
does not exist, abort on a parse failure or a `set_deep` exception,
otherwise write the updated tree back to the same path. -/
def process_lang (disk : Disk) (lang : String) : Except RunErr Disk :=
  match dictGet disk (locale_path lang) with
  | none => Except.ok disk
  | some FileData.invalid => Except.error (RunErr.parseError (locale_path lang))
  | some (FileData.valid d) =>
    match update_tree lang d with
    | some d2 => Except.ok (dictSet disk (locale_path lang) (FileData.valid d2))
    | none => Except.error RunErr.typeError

/-- `update_locales` from src/update_vocab_locales.py lines 9-90: the
language loop over the fixed supported set. -/
def update_locales (disk : Disk) : Except RunErr Disk :=
  langs.foldlM process_lang disk

/-! Specification-side definitions used to state the claims. -/

/-- Reading a value at a path of segments: the spec-side observer used to
state what `set_deep` wrote. -/
def get_deep : Obj → List String → Option JVal
  | _, [] => none
  | d, [k] => dictGet d k
  | d, k :: k2 :: ks =>
    match dictGet d k with
    | some (JVal.obj sub) => get_deep sub (k2 :: ks)
    | _ => none

/-- The implicit precondition of `set_deep`: every non-final segment that
is already present is bound to a submapping, not a leaf. -/
def pathClearB : Obj → List String → Bool
  | _, [] => true
  | _, [_] => true
  | d, k :: k2 :: ks =>
    match dictGet d k with
    | some (JVal.leaf _) => false
    | some (JVal.obj sub) => pathClearB sub (k2 :: ks)
    | none => true

/-- The tree has a leaf with scalar `s` at the segment path `p`: some
entry of the object is walked, exactly as the iteration of `get_keys`
walks entries. -/
inductive IsLeafAt : Obj → List String → Option String → Prop where
  | hd_leaf (k : String) (s : Option String) (rest : Obj) :
      IsLeafAt ((k, JVal.leaf s) :: rest) [k] s
  | hd_obj (k : String) (sub rest : Obj) (p : List String) (s : Option String) :
      IsLeafAt sub p s → IsLeafAt ((k, JVal.obj sub) :: rest) (k :: p) s
  | tl (e : String × JVal) (rest : Obj) (p : List String) (s : Option String) :
      IsLeafAt rest p s → IsLeafAt (e :: rest) p s

/-- Joining segments with `.`: the inverse view of a dotted key path. -/
def joinDot : List String → String
  | [] => ""
  | [k] => k
  | k :: k2 :: ks => k ++ "." ++ joinDot (k2 :: ks)

/-- A key that contains no `.`, so that flattening it is unambiguous. -/
def dotFree (s : String) : Bool := s.data.all (fun c => c != '.')

/-- The dotted prefix accumulated by `get_keys` after descending through
the keys `ps`. -/
def dotPfx : List String → String
  | [] => ""
  | k :: ks => k ++ "." ++ dotPfx ks

mutual

/-- The flattening of `get_keys` enriched with each leaf's value: same
traversal, emitting `(dotted path, leaf scalar)` in iteration order. -/
def flatten_kv_val : String → JVal → String → List (String × Option String)
  | k, JVal.leaf s, pfx => [(pfx ++ k, s)]
  | k, JVal.obj sub, pfx => flatten_kv sub (pfx ++ k ++ ".")

/-- Object-level flattening with values; `get_keys` is its path part. -/
def flatten_kv : Obj → String → List (String × Option String)
  | [], _ => []
  | (k, v) :: rest, pfx => flatten_kv_val k v pfx ++ flatten_kv rest pfx

end

mutual

/-- Segment-level flattening of one entry. -/
def flatten_seg_val : String → JVal → List (List String × Option String)
  | k, JVal.leaf s => [([k], s)]
  | k, JVal.obj sub => (flatten_seg sub).map (fun e => (k :: e.1, e.2))

/-- Segment-level flattening of an object: the paths of `flatten_kv`
before joining with `.`. -/
def flatten_seg : Obj → List (List String × Option String)
  | [] => []
  | (k, v) :: rest => flatten_seg_val k v ++ flatten_seg rest

end

/-- Rebuilding a tree from scratch: `set_deep` applied on an empty
mapping for each dotted path with its leaf value, in order. -/
def rebuild (es : List (String × Option String)) : Option Obj :=
  es.foldlM (fun d e => set_deep d (splitDot e.1) (JVal.leaf e.2)) []

/-- Applying a list of segment-path / leaf-value assignments by
`set_deep`, in order. -/
def applySeg (d : Obj) (es : List (List String × Option String)) : Option Obj :=
  es.foldlM (fun d2 e => set_deep d2 e.1 (JVal.leaf e.2)) d

mutual

/-- Keys are duplicate-free at every level below this value. -/
def nodupKeysValB : JVal → Bool
  | JVal.leaf _ => true
  | JVal.obj sub => nodupKeysB sub

/-- Keys are duplicate-free at every level of the object. -/
def nodupKeysB : Obj → Bool
  | [] => true
  | (k, v) :: rest =>
    !((rest.map Prod.fst).contains k) && nodupKeysValB v && nodupKeysB rest

end

mutual

/-- No empty submapping below this value. -/
def noEmptyObjValB : JVal → Bool
  | JVal.leaf _ => true
  | JVal.obj [] => false
  | JVal.obj (e :: rest) => noEmptyObjB (e :: rest)

/-- No empty submapping anywhere in the object. -/
def noEmptyObjB : Obj → Bool
  | [] => true
  | (_, v) :: rest => noEmptyObjValB v && noEmptyObjB rest

end

mutual

/-- No key contains a `.` below this value. -/
def noDotKeyValB : JVal → Bool
  | JVal.leaf _ => true
  | JVal.obj sub => noDotKeyB sub

/-- No key anywhere in the object contains a `.`. -/
def noDotKeyB : Obj → Bool
  | [] => true
  | (k, v) :: rest => dotFree k && noDotKeyValB v && noDotKeyB rest

end

mutual

/-- Structural induction over objects, with leaf and submapping cases. -/
def ObjInd {Q : Obj → Prop}
    (hnil : Q [])
    (hleaf : ∀ k s rest, Q rest → Q ((k, JVal.leaf s) :: rest))
    (hobj : ∀ k sub rest, Q sub → Q rest → Q ((k, JVal.obj sub) :: rest)) :
    ∀ d, Q d
  | [] => hnil
  | (k, v) :: rest =>
    ValInd hnil hleaf hobj k v rest (ObjInd hnil hleaf hobj rest)

/-- Helper for `ObjInd`: dispatch on the value of a single entry. -/
def ValInd {Q : Obj → Prop}
    (hnil : Q [])
    (hleaf : ∀ k s rest, Q rest → Q ((k, JVal.leaf s) :: rest))
    (hobj : ∀ k sub rest, Q sub → Q rest → Q ((k, JVal.obj sub) :: rest)) :
    ∀ k v rest, Q rest → Q ((k, v) :: rest)
  | k, JVal.leaf s, rest, hr => hleaf k s rest hr
  | k, JVal.obj sub, rest, hr => hobj k sub rest (ObjInd hnil hleaf hobj sub) hr

end

/-! Lemmas about the dict primitives. -/

theorem dictGet_dictSet_self {α : Type} (d : List (String × α)) (k : String) (v : α) :
    dictGet (dictSet d k v) k = some v := by
  induction d with
  | nil => simp [dictGet, dictSet]
  | cons e rest ih =>
    obtain ⟨k1, w⟩ := e
    by_cases h : k1 = k
    · subst h
      simp [dictGet, dictSet]
    · simp [dictGet, dictSet, h, ih]

theorem dictGet_dictSet_ne {α : Type} (d : List (String × α)) (k k' : String) (v : α)
    (h : k' ≠ k) : dictGet (dictSet d k v) k' = dictGet d k' := by
  induction d with
  | nil => simp [dictGet, dictSet, Ne.symm h]
  | cons e rest ih =>
    obtain ⟨k1, w⟩ := e
    by_cases h1 : k1 = k
    · subst h1
      simp [dictGet, dictSet, Ne.symm h]
    · simp only [dictSet, if_neg h1]
      by_cases h2 : k1 = k'
      · simp [dictGet, h2]
      · simp [dictGet, h2, ih]

theorem dictSet_eq_self {α : Type} (d : List (String × α)) (k : String) (v : α)
    (h : dictGet d k = some v) : dictSet d k v = d := by
  induction d with
  | nil => simp [dictGet] at h
  | cons e rest ih =>
    obtain ⟨k1, w⟩ := e
    by_cases h1 : k1 = k
    · subst h1
      simp [dictGet] at h
      simp [dictSet, h]
    · simp [dictGet, h1] at h
      simp [dictSet, h1, ih h]

theorem dictGet_cons_ne {α : Type} (e : String × α) (d : List (String × α)) (k : String)
    (h : e.1 ≠ k) : dictGet (e :: d) k = dictGet d k := by
  obtain ⟨k1, w⟩ := e
  simp [dictGet, h]

theorem dictSet_cons_ne {α : Type} (e : String × α) (d : List (String × α)) (k : String)
    (v : α) (h : e.1 ≠ k) : dictSet (e :: d) k v = e :: dictSet d k v := by
  obtain ⟨k1, w⟩ := e
  simp [dictSet, h]

/-! Lemmas about `splitDot` and `joinDot`. -/

theorem splitDotL_ne_nil (l : List Char) : splitDotL l ≠ [] := by
  cases l with
  | nil => simp [splitDotL]
  | cons c rest =>
    by_cases h : c = '.'
    · simp [splitDotL, h]
    · simp only [splitDotL, if_neg h]
      cases splitDotL rest with
      | nil => simp
      | cons w ws => simp

theorem splitDotL_cons_ne (c : Char) (l : List Char) (h : c ≠ '.') :
    splitDotL (c :: l) =
      (c :: (splitDotL l).headI) :: (splitDotL l).tail := by
  simp only [splitDotL, if_neg h]
  cases hs : splitDotL l with
  | nil => exact absurd hs (splitDotL_ne_nil l)
  | cons w ws => simp [List.headI]

theorem splitDotL_append_dot (xs ys : List Char) (h : ∀ c ∈ xs, c ≠ '.') :
    splitDotL (xs ++ '.' :: ys) = xs :: splitDotL ys := by
  induction xs with
  | nil => simp [splitDotL]
  | cons c rest ih =>
    have hc : c ≠ '.' := h c (by simp)
    have ih2 := ih (fun c2 hm => h c2 (by simp [hm]))
    rw [List.cons_append, splitDotL_cons_ne c _ hc, ih2]
    simp [List.headI]

theorem splitDotL_dotFreeL (xs : List Char) (h : ∀ c ∈ xs, c ≠ '.') :
    splitDotL xs = [xs] := by
  induction xs with
  | nil => rfl
  | cons c rest ih =>
    have hc : c ≠ '.' := h c (by simp)
    have ih2 := ih (fun c2 hm => h c2 (by simp [hm]))
    simp only [splitDotL, if_neg hc, ih2]

theorem dotFree_iff (s : String) : dotFree s = true ↔ ∀ c ∈ s.data, c ≠ '.' := by
  simp [dotFree, List.all_eq_true]

theorem splitDot_ne_nil (s : String) : splitDot s ≠ [] := by
  simp [splitDot, splitDotL_ne_nil]

theorem splitDot_append_dot (s t : String) (h : dotFree s = true) :
    splitDot (s ++ "." ++ t) = s :: splitDot t := by
  have hd : (s ++ "." ++ t).data = s.data ++ '.' :: t.data := by
    simp [String.data_append]
  simp only [splitDot, hd, splitDotL_append_dot s.data t.data ((dotFree_iff s).mp h)]
  simp [List.map_cons]

theorem splitDot_dotFree (s : String) (h : dotFree s = true) : splitDot s = [s] := by
  simp [splitDot, splitDotL_dotFreeL s.data ((dotFree_iff s).mp h)]

theorem stringMk_inj (a b : List Char) (h : String.mk a = String.mk b) : a = b :=
  congrArg String.data h

theorem joinDot_splitDotL (l : List Char) :
    joinDot ((splitDotL l).map (fun w => String.mk w)) = String.mk l := by
  induction l with
  | nil => rfl
  | cons c rest ih =>
    obtain ⟨w, ws, hw⟩ := List.exists_cons_of_ne_nil (splitDotL_ne_nil rest)
    by_cases hc : c = '.'
    · subst hc
      rw [show splitDotL ('.' :: rest) = [] :: splitDotL rest from by simp [splitDotL]]
      rw [hw] at ih ⊢
      apply String.ext
      simp only [List.map_cons, joinDot] at ih ⊢
      rw [show ((String.mk []) ++ "." ++
          joinDot (String.mk w :: ws.map (fun x => String.mk x))).data =
          '.' :: (joinDot (String.mk w :: ws.map (fun x => String.mk x))).data from by
        simp [String.data_append]]
      rw [ih]
    · rw [splitDotL_cons_ne c rest hc, hw]
      rw [hw] at ih
      cases ws with
      | nil =>
        simp only [List.headI, List.tail, List.map_cons, List.map_nil, joinDot] at ih ⊢
        have hwr : w = rest := stringMk_inj _ _ ih
        rw [hwr]
      | cons w2 ws2 =>
        simp only [List.headI, List.tail, List.map_cons, joinDot] at ih ⊢
        apply String.ext
        have ihd := congrArg String.data ih
        simp only [String.data_append] at ihd ⊢
        simp only [List.cons_append]
        rw [ihd]

theorem joinDot_splitDot (s : String) : joinDot (splitDot s) = s := by
  have h := joinDot_splitDotL s.data
  simpa [splitDot] using h

theorem splitDot_dotPfx (ps : List String) (k : String)
    (hps : ∀ p ∈ ps, dotFree p = true) (hk : dotFree k = true) :
    splitDot (dotPfx ps ++ k) = ps ++ [k] := by
  induction ps with
  | nil =>
    rw [show dotPfx [] ++ k = k from by simp [dotPfx], splitDot_dotFree k hk]
    rfl
  | cons p ps ih =>
    have h1 : dotFree p = true := hps p (by simp)
    have h2 : dotPfx (p :: ps) ++ k = p ++ "." ++ (dotPfx ps ++ k) := by
      simp [dotPfx, String.append_assoc]
    rw [h2, splitDot_append_dot p _ h1, ih (fun q hq => hps q (by simp [hq]))]
    rfl

theorem append_joinDot (pfx k : String) (segs : List String) (h : segs ≠ []) :
    (pfx ++ k ++ ".") ++ joinDot segs = pfx ++ joinDot (k :: segs) := by
  cases segs with
  | nil => exact absurd rfl h
  | cons s2 rest => simp [joinDot, String.append_assoc]

/-! Core lemmas about `set_deep`, `get_deep` and `pathClearB`. -/

theorem set_deep_ne_nil (d : Obj) (p : List String) (v : JVal) (d' : Obj)
    (h : set_deep d p v = some d') : p ≠ [] := by
  intro hp
  subst hp
  simp [set_deep] at h

theorem set_get (d : Obj) (p : List String) (v : JVal) (d' : Obj)
    (h : set_deep d p v = some d') : get_deep d' p = some v := by
  induction p generalizing d d' with
  | nil => simp [set_deep] at h
  | cons k ks ih =>
    cases ks with
    | nil =>
      simp only [set_deep, Option.some.injEq] at h
      subst h
      simp [get_deep, dictGet_dictSet_self]
    | cons k2 ks2 =>
      rcases hg : dictGet d k with _ | w
      · simp only [set_deep, hg] at h
        rcases hs : set_deep [] (k2 :: ks2) v with _ | sub2
        · rw [hs] at h
          simp at h
        · rw [hs] at h
          simp at h
          subst h
          simp only [get_deep, dictGet_dictSet_self]
          exact ih [] sub2 hs
      · cases w with
        | leaf s => simp [set_deep, hg] at h
        | obj sub =>
          simp only [set_deep, hg] at h
          rcases hs : set_deep sub (k2 :: ks2) v with _ | sub2
          · rw [hs] at h
            simp at h
          · rw [hs] at h
            simp at h
            subst h
            simp only [get_deep, dictGet_dictSet_self]
            exact ih sub sub2 hs

theorem set_deep_already (d : Obj) (p : List String) (v : JVal)
    (h : get_deep d p = some v) : set_deep d p v = some d := by
  induction p generalizing d with
  | nil => simp [get_deep] at h
  | cons k ks ih =>
    cases ks with
    | nil =>
      simp only [get_deep] at h
      simp [set_deep, dictSet_eq_self d k v h]
    | cons k2 ks2 =>
      rcases hg : dictGet d k with _ | w
      · simp [get_deep, hg] at h
      · cases w with
        | leaf s => simp [get_deep, hg] at h
        | obj sub =>
          simp only [get_deep, hg] at h
          simp [set_deep, hg, ih sub h, dictSet_eq_self d k (JVal.obj sub) hg]

theorem get_deep_dictSet_ne (d : Obj) (k k1 : String) (w : JVal) (qs : List String)
    (hk : k1 ≠ k) : get_deep (dictSet d k w) (k1 :: qs) = get_deep d (k1 :: qs) := by
  cases qs with
  | nil => simp [get_deep, dictGet_dictSet_ne d k k1 w hk]
  | cons q2 qs2 => simp [get_deep, dictGet_dictSet_ne d k k1 w hk]

theorem set_deep_frame (p : List String) : ∀ (d : Obj) (v : JVal) (d' : Obj) (q : List String),
    set_deep d p v = some d' → ¬ p <+: q → ¬ q <+: p →
    get_deep d' q = get_deep d q := by
  induction p with
  | nil =>
    intro d v d' q h _ _
    simp [set_deep] at h
  | cons k ks ih =>
    intro d v d' q h hpq hqp
    cases q with
    | nil => simp [get_deep]
    | cons k1 qs =>
      by_cases hk : k1 = k
      · subst hk
        have hpq2 : ¬ ks <+: qs := fun hh => hpq (List.cons_prefix_cons.mpr ⟨rfl, hh⟩)
        have hqp2 : ¬ qs <+: ks := fun hh => hqp (List.cons_prefix_cons.mpr ⟨rfl, hh⟩)
        cases ks with
        | nil => exact absurd (List.nil_prefix) hpq2
        | cons k2 ks2 =>
          cases qs with
          | nil => exact absurd (List.nil_prefix) hqp2
          | cons q2 qs2 =>
            rcases hg : dictGet d k1 with _ | w
            · simp only [set_deep, hg] at h
              rcases hs : set_deep [] (k2 :: ks2) v with _ | sub2
              · rw [hs] at h
                simp at h
              · rw [hs] at h
                simp at h
                subst h
                simp only [get_deep, dictGet_dictSet_self, hg]
                exact (ih [] v sub2 (q2 :: qs2) hs hpq2 hqp2).trans (by cases qs2 <;> rfl)
            · cases w with
              | leaf s => simp [set_deep, hg] at h
              | obj sub =>
                simp only [set_deep, hg] at h
                rcases hs : set_deep sub (k2 :: ks2) v with _ | sub2
                · rw [hs] at h
                  simp at h
                · rw [hs] at h
                  simp at h
                  subst h
                  simp only [get_deep, dictGet_dictSet_self, hg]
                  exact ih sub v sub2 (q2 :: qs2) hs hpq2 hqp2
      · cases ks with
        | nil =>
          simp only [set_deep, Option.some.injEq] at h
          subst h
          exact get_deep_dictSet_ne d k k1 v qs hk
        | cons k2 ks2 =>
          rcases hg : dictGet d k with _ | w
          · simp only [set_deep, hg] at h
            rcases hs : set_deep [] (k2 :: ks2) v with _ | sub2
            · rw [hs] at h
              simp at h
            · rw [hs] at h
              simp at h
              subst h
              exact get_deep_dictSet_ne d k k1 (JVal.obj sub2) qs hk
          · cases w with
            | leaf s => simp [set_deep, hg] at h
            | obj sub =>
              simp only [set_deep, hg] at h
              rcases hs : set_deep sub (k2 :: ks2) v with _ | sub2
              · rw [hs] at h
                simp at h
              · rw [hs] at h
                simp at h
                subst h
                exact get_deep_dictSet_ne d k k1 (JVal.obj sub2) qs hk

theorem pathClear_nil_tree (p : List String) : pathClearB [] p = true := by
  cases p with
  | nil => rfl
  | cons k ks =>
    cases ks with
    | nil => rfl
    | cons k2 ks2 => simp [pathClearB, dictGet]

theorem set_deep_isSome (p : List String) : ∀ (d : Obj) (v : JVal), p ≠ [] →
    pathClearB d p = true → (set_deep d p v).isSome = true := by
  induction p with
  | nil =>
    intro d v hne _
    exact absurd rfl hne
  | cons k ks ih =>
    intro d v _ hc
    cases ks with
    | nil => simp [set_deep]
    | cons k2 ks2 =>
      rcases hg : dictGet d k with _ | w
      · have h2 := ih [] v (by simp) (pathClear_nil_tree _)
        simp only [set_deep, hg]
        rcases hs : set_deep [] (k2 :: ks2) v with _ | s
        · rw [hs] at h2
          simp at h2
        · simp
      · cases w with
        | leaf s => simp [pathClearB, hg] at hc
        | obj sub =>
          simp only [pathClearB, hg] at hc
          have h2 := ih sub v (by simp) hc
          simp only [set_deep, hg]
          rcases hs : set_deep sub (k2 :: ks2) v with _ | s
          · rw [hs] at h2
            simp at h2
          · simp

theorem set_deep_none_of_not_clear (p : List String) : ∀ (d : Obj) (v : JVal),
    pathClearB d p = false → set_deep d p v = none := by
  induction p with
  | nil =>
    intro d v _
    rfl
  | cons k ks ih =>
    intro d v hc
    cases ks with
    | nil => simp [pathClearB] at hc
    | cons k2 ks2 =>
      rcases hg : dictGet d k with _ | w
      · simp [pathClearB, hg] at hc
      · cases w with
        | leaf s => simp [set_deep, hg]
        | obj sub =>
          simp only [pathClearB, hg] at hc
          simp [set_deep, hg, ih sub v hc]

theorem pathClear_preserve (q : List String) : ∀ (d : Obj) (w : JVal) (d' : Obj) (p : List String),
    pathClearB d p = true → set_deep d q w = some d' → (q <+: p → q = p) →
    pathClearB d' p = true := by
  induction q with
  | nil =>
    intro d w d' p _ h _
    simp [set_deep] at h
  | cons k ks ih =>
    intro d w d' p hc h hqp
    cases p with
    | nil => simp [pathClearB]
    | cons p1 ps =>
      cases ps with
      | nil => simp [pathClearB]
      | cons p2 ps2 =>
        by_cases hk : p1 = k
        · subst hk
          have hqp2 : ks <+: (p2 :: ps2) → ks = p2 :: ps2 := by
            intro hpre
            have h2 := hqp (List.cons_prefix_cons.mpr ⟨rfl, hpre⟩)
            exact (List.cons.injEq _ _ _ _ ▸ h2).2
          cases ks with
          | nil =>
            have h2 := hqp2 (List.nil_prefix)
            simp at h2
          | cons kk2 kks =>
            rcases hg : dictGet d p1 with _ | ww
            · simp only [set_deep, hg] at h
              rcases hs : set_deep [] (kk2 :: kks) w with _ | sub2
              · rw [hs] at h
                simp at h
              · rw [hs] at h
                simp at h
                subst h
                simp only [pathClearB, dictGet_dictSet_self]
                exact ih [] w sub2 (p2 :: ps2) (pathClear_nil_tree _) hs hqp2
            · cases ww with
              | leaf s => simp [set_deep, hg] at h
              | obj sub =>
                simp only [pathClearB, hg] at hc
                simp only [set_deep, hg] at h
                rcases hs : set_deep sub (kk2 :: kks) w with _ | sub2
                · rw [hs] at h
                  simp at h
                · rw [hs] at h
                  simp at h
                  subst h
                  simp only [pathClearB, dictGet_dictSet_self]
                  exact ih sub w sub2 (p2 :: ps2) hc hs hqp2
        · have hk2 : p1 ≠ k := hk
          cases ks with
          | nil =>
            simp only [set_deep, Option.some.injEq] at h
            subst h
            simp only [pathClearB, dictGet_dictSet_ne d k p1 w hk2]
            simpa [pathClearB] using hc
          | cons kk2 kks =>
            rcases hg : dictGet d k with _ | ww
            · simp only [set_deep, hg] at h
              rcases hs : set_deep [] (kk2 :: kks) w with _ | sub2
              · rw [hs] at h
                simp at h
              · rw [hs] at h
                simp at h
                subst h
                simp only [pathClearB, dictGet_dictSet_ne d k p1 (JVal.obj sub2) hk2]
                simpa [pathClearB] using hc
            · cases ww with
              | leaf s => simp [set_deep, hg] at h
              | obj sub =>
                simp only [set_deep, hg] at h
                rcases hs : set_deep sub (kk2 :: kks) w with _ | sub2
                · rw [hs] at h
                  simp at h
                · rw [hs] at h
                  simp at h
                  subst h
                  simp only [pathClearB, dictGet_dictSet_ne d k p1 (JVal.obj sub2) hk2]
                  simpa [pathClearB] using hc

/-! Lemmas about `IsLeafAt`. -/

theorem isLeafAt_nil (p : List String) (s : Option String) (h : IsLeafAt [] p s) : False := by
  cases h

theorem isLeafAt_ne_nil {d : Obj} {p : List String} {s : Option String}
    (h : IsLeafAt d p s) : p ≠ [] := by
  induction h with
  | hd_leaf k s rest => simp
  | hd_obj k sub rest p s hsub ih => simp
  | tl e rest p s htl ih => exact ih

theorem isLeafAt_cons_leaf_iff (k : String) (s0 : Option String) (rest : Obj)
    (p : List String) (s : Option String) :
    IsLeafAt ((k, JVal.leaf s0) :: rest) p s ↔ (p = [k] ∧ s = s0) ∨ IsLeafAt rest p s := by
  constructor
  · intro h
    cases h with
    | hd_leaf => exact Or.inl ⟨rfl, rfl⟩
    | tl _ _ _ _ h2 => exact Or.inr h2
  · rintro (⟨hp, hs⟩ | h2)
    · subst hp
      subst hs
      exact IsLeafAt.hd_leaf k s rest
    · exact IsLeafAt.tl _ _ _ _ h2

theorem isLeafAt_cons_obj_iff (k : String) (sub rest : Obj)
    (p : List String) (s : Option String) :
    IsLeafAt ((k, JVal.obj sub) :: rest) p s ↔
      (∃ p2, p = k :: p2 ∧ IsLeafAt sub p2 s) ∨ IsLeafAt rest p s := by
  constructor
  · intro h
    cases h with
    | hd_obj _ _ _ p2 _ h2 => exact Or.inl ⟨p2, rfl, h2⟩
    | tl _ _ _ _ h2 => exact Or.inr h2
  · rintro (⟨p2, hp, h2⟩ | h2)
    · subst hp
      exact IsLeafAt.hd_obj k sub rest p2 s h2
    · exact IsLeafAt.tl _ _ _ _ h2

theorem isLeafAt_of_dictGet_obj (d : Obj) (k : String) (sub : Obj) (p : List String)
    (s : Option String) (hg : dictGet d k = some (JVal.obj sub)) (h : IsLeafAt sub p s) :
    IsLeafAt d (k :: p) s := by
  induction d with
  | nil => simp [dictGet] at hg
  | cons e rest ih =>
    obtain ⟨k1, w⟩ := e
    by_cases hk : k1 = k
    · subst hk
      simp [dictGet] at hg
      subst hg
      exact IsLeafAt.hd_obj k1 sub rest p s h
    · simp only [dictGet, if_neg hk] at hg
      exact IsLeafAt.tl _ _ _ _ (ih hg)

theorem isLeafAt_of_dictGet_leaf (d : Obj) (k : String) (s : Option String)
    (hg : dictGet d k = some (JVal.leaf s)) : IsLeafAt d [k] s := by
  induction d with
  | nil => simp [dictGet] at hg
  | cons e rest ih =>
    obtain ⟨k1, w⟩ := e
    by_cases hk : k1 = k
    · subst hk
      simp [dictGet] at hg
      subst hg
      exact IsLeafAt.hd_leaf k1 s rest
    · simp only [dictGet, if_neg hk] at hg
      exact IsLeafAt.tl _ _ _ _ (ih hg)

theorem isLeafAt_of_get_deep (p : List String) : ∀ (d : Obj) (s : Option String),
    get_deep d p = some (JVal.leaf s) → IsLeafAt d p s := by
  induction p with
  | nil =>
    intro d s h
    simp [get_deep] at h
  | cons k ks ih =>
    intro d s h
    cases ks with
    | nil => exact isLeafAt_of_dictGet_leaf d k s h
    | cons k2 ks2 =>
      rcases hg : dictGet d k with _ | w
      · simp [get_deep, hg] at h
      · cases w with
        | leaf s2 => simp [get_deep, hg] at h
        | obj sub =>
          simp only [get_deep, hg] at h
          exact isLeafAt_of_dictGet_obj d k sub (k2 :: ks2) s hg (ih sub s h)

theorem isLeafAt_dictSet_leaf (d : Obj) (k : String) (s0 : Option String)
    (p : List String) (s : Option String)
    (h : IsLeafAt (dictSet d k (JVal.leaf s0)) p s) :
    IsLeafAt d p s ∨ (p = [k] ∧ s = s0) := by
  induction d with
  | nil =>
    rcases (isLeafAt_cons_leaf_iff k s0 [] p s).mp h with ⟨hp, hs⟩ | h2
    · exact Or.inr ⟨hp, hs⟩
    · exact (isLeafAt_nil p s h2).elim
  | cons e rest ih =>
    obtain ⟨k1, w⟩ := e
    by_cases hk : k1 = k
    · subst hk
      rw [show dictSet ((k1, w) :: rest) k1 (JVal.leaf s0) = (k1, JVal.leaf s0) :: rest from by
        simp [dictSet]] at h
      rcases (isLeafAt_cons_leaf_iff k1 s0 rest p s).mp h with ⟨hp, hs⟩ | h2
      · exact Or.inr ⟨hp, hs⟩
      · exact Or.inl (IsLeafAt.tl _ _ _ _ h2)
    · rw [dictSet_cons_ne (k1, w) rest k (JVal.leaf s0) hk] at h
      cases w with
      | leaf sw =>
        rcases (isLeafAt_cons_leaf_iff k1 sw _ p s).mp h with ⟨hp, hs⟩ | h2
        · subst hp
          subst hs
          exact Or.inl (IsLeafAt.hd_leaf k1 s rest)
        · rcases ih h2 with h3 | h3
          · exact Or.inl (IsLeafAt.tl _ _ _ _ h3)
          · exact Or.inr h3
      | obj sw =>
        rcases (isLeafAt_cons_obj_iff k1 sw _ p s).mp h with ⟨p2, hp, h2⟩ | h2
        · subst hp
          exact Or.inl (IsLeafAt.hd_obj k1 sw rest p2 s h2)
        · rcases ih h2 with h3 | h3
          · exact Or.inl (IsLeafAt.tl _ _ _ _ h3)
          · exact Or.inr h3

theorem isLeafAt_dictSet_obj (d : Obj) (k : String) (sub2 : Obj)
    (p : List String) (s : Option String)
    (h : IsLeafAt (dictSet d k (JVal.obj sub2)) p s) :
    IsLeafAt d p s ∨ (∃ p2, p = k :: p2 ∧ IsLeafAt sub2 p2 s) := by
  induction d with
  | nil =>
    rcases (isLeafAt_cons_obj_iff k sub2 [] p s).mp h with ⟨p2, hp, h2⟩ | h2
    · exact Or.inr ⟨p2, hp, h2⟩
    · exact (isLeafAt_nil p s h2).elim
  | cons e rest ih =>
    obtain ⟨k1, w⟩ := e
    by_cases hk : k1 = k
    · subst hk
      rw [show dictSet ((k1, w) :: rest) k1 (JVal.obj sub2) = (k1, JVal.obj sub2) :: rest from by
        simp [dictSet]] at h
      rcases (isLeafAt_cons_obj_iff k1 sub2 rest p s).mp h with ⟨p2, hp, h2⟩ | h2
      · exact Or.inr ⟨p2, hp, h2⟩
      · exact Or.inl (IsLeafAt.tl _ _ _ _ h2)
    · rw [dictSet_cons_ne (k1, w) rest k (JVal.obj sub2) hk] at h
      cases w with
      | leaf sw =>
        rcases (isLeafAt_cons_leaf_iff k1 sw _ p s).mp h with ⟨hp, hs⟩ | h2
        · subst hp
          subst hs
          exact Or.inl (IsLeafAt.hd_leaf k1 s rest)
        · rcases ih h2 with h3 | h3
          · exact Or.inl (IsLeafAt.tl _ _ _ _ h3)
          · exact Or.inr h3
      | obj sw =>
        rcases (isLeafAt_cons_obj_iff k1 sw _ p s).mp h with ⟨p2, hp, h2⟩ | h2
        · subst hp
          exact Or.inl (IsLeafAt.hd_obj k1 sw rest p2 s h2)
        · rcases ih h2 with h3 | h3
          · exact Or.inl (IsLeafAt.tl _ _ _ _ h3)
          · exact Or.inr h3

theorem isLeafAt_set_deep (q : List String) : ∀ (d : Obj) (s0 : Option String) (d' : Obj)
    (p : List String) (s : Option String),
    set_deep d q (JVal.leaf s0) = some d' → IsLeafAt d' p s →
    IsLeafAt d p s ∨ (p = q ∧ s = s0) := by
  induction q with
  | nil =>
    intro d s0 d' p s h _
    simp [set_deep] at h
  | cons k ks ih =>
    intro d s0 d' p s h hl
    cases ks with
    | nil =>
      simp only [set_deep, Option.some.injEq] at h
      subst h
      exact isLeafAt_dictSet_leaf d k s0 p s hl
    | cons k2 ks2 =>
      rcases hg : dictGet d k with _ | w
      · simp only [set_deep, hg] at h
        rcases hs : set_deep [] (k2 :: ks2) (JVal.leaf s0) with _ | sub2
        · rw [hs] at h
          simp at h
        · rw [hs] at h
          simp at h
          subst h
          rcases isLeafAt_dictSet_obj d k sub2 p s hl with h2 | ⟨p2, hp, h2⟩
          · exact Or.inl h2
          · rcases ih [] s0 sub2 p2 s hs h2 with h3 | ⟨hp2, hs2⟩
            · exact (isLeafAt_nil p2 s h3).elim
            · subst hp
              subst hp2
              exact Or.inr ⟨rfl, hs2⟩
      · cases w with
        | leaf sw => simp [set_deep, hg] at h
        | obj sub =>
          simp only [set_deep, hg] at h
          rcases hs : set_deep sub (k2 :: ks2) (JVal.leaf s0) with _ | sub2
          · rw [hs] at h
            simp at h
          · rw [hs] at h
            simp at h
            subst h
            rcases isLeafAt_dictSet_obj d k sub2 p s hl with h2 | ⟨p2, hp, h2⟩
            · exact Or.inl h2
            · rcases ih sub s0 sub2 p2 s hs h2 with h3 | ⟨hp2, hs2⟩
              · subst hp
                exact Or.inl (isLeafAt_of_dictGet_obj d k sub p2 s hg h3)
              · subst hp
                subst hp2
                exact Or.inr ⟨rfl, hs2⟩

theorem not_clear_of_leaf_on_path (p : List String) : ∀ (d : Obj) (segs : List String)
    (s : Option String), p <+: segs → p ≠ segs →
    get_deep d p = some (JVal.leaf s) → pathClearB d segs = false := by
  induction p with
  | nil =>
    intro d segs s _ _ hget
    simp [get_deep] at hget
  | cons k ks ih =>
    intro d segs s hpre hne hget
    obtain ⟨rest, hr⟩ := hpre
    subst hr
    have hrest : rest ≠ [] := by
      intro h0
      subst h0
      simp at hne
    cases ks with
    | nil =>
      simp only [get_deep] at hget
      cases rest with
      | nil => exact absurd rfl hrest
      | cons r1 rs => simp [pathClearB, hget]
    | cons k2 ks2 =>
      rcases hg : dictGet d k with _ | w
      · simp [get_deep, hg] at hget
      · cases w with
        | leaf sw => simp [get_deep, hg] at hget
        | obj sub =>
          simp only [get_deep, hg] at hget
          have hne2 : (k2 :: ks2) ≠ (k2 :: ks2) ++ rest := by
            intro hEq
            have hlen := congrArg List.length hEq
            simp at hlen
            exact hrest hlen
          have h2 := ih sub ((k2 :: ks2) ++ rest) s ⟨rest, rfl⟩ hne2 hget
          simpa [pathClearB, hg] using h2

/-! Characterization of `get_keys` and the flattening helpers. -/

theorem mem_get_keys (d : Obj) : ∀ (pfx p : String),
    p ∈ get_keys d pfx ↔ ∃ segs s, IsLeafAt d segs s ∧ p = pfx ++ joinDot segs := by
  refine @ObjInd (fun d => ∀ (pfx p : String),
    p ∈ get_keys d pfx ↔ ∃ segs s, IsLeafAt d segs s ∧ p = pfx ++ joinDot segs) ?_ ?_ ?_ d
  · intro pfx p
    simp only [get_keys]
    constructor
    · intro h
      simp at h
    · rintro ⟨segs, s, h, _⟩
      exact (isLeafAt_nil segs s h).elim
  · intro k s0 rest ih pfx p
    simp only [get_keys, get_keys_val, Finset.mem_union, Finset.mem_singleton]
    rw [ih pfx p]
    constructor
    · rintro (h1 | ⟨segs, s, h2, hp⟩)
      · exact ⟨[k], s0, IsLeafAt.hd_leaf k s0 rest, by simp [joinDot, h1]⟩
      · exact ⟨segs, s, IsLeafAt.tl _ _ _ _ h2, hp⟩
    · rintro ⟨segs, s, h2, hp⟩
      rcases (isLeafAt_cons_leaf_iff k s0 rest segs s).mp h2 with ⟨hseg, hs⟩ | h3
      · subst hseg
        exact Or.inl (by simpa [joinDot] using hp)
      · exact Or.inr ⟨segs, s, h3, hp⟩
  · intro k sub rest ihsub ihrest pfx p
    simp only [get_keys, get_keys_val, Finset.mem_union]
    rw [ihsub (pfx ++ k ++ ".") p, ihrest pfx p]
    constructor
    · rintro (⟨segs, s, h2, hp⟩ | ⟨segs, s, h2, hp⟩)
      · refine ⟨k :: segs, s, IsLeafAt.hd_obj k sub rest segs s h2, ?_⟩
        rw [hp, ← append_joinDot pfx k segs (isLeafAt_ne_nil h2)]
      · exact ⟨segs, s, IsLeafAt.tl _ _ _ _ h2, hp⟩
    · rintro ⟨segs, s, h2, hp⟩
      rcases (isLeafAt_cons_obj_iff k sub rest segs s).mp h2 with ⟨p2, hseg, h3⟩ | h3
      · subst hseg
        refine Or.inl ⟨p2, s, h3, ?_⟩
        rw [hp, ← append_joinDot pfx k p2 (isLeafAt_ne_nil h3)]
      · exact Or.inr ⟨segs, s, h3, hp⟩

theorem get_keys_eq_flatten_kv (d : Obj) : ∀ pfx,
    get_keys d pfx = ((flatten_kv d pfx).map Prod.fst).toFinset := by
  refine @ObjInd (fun d => ∀ pfx,
    get_keys d pfx = ((flatten_kv d pfx).map Prod.fst).toFinset) ?_ ?_ ?_ d
  · intro pfx
    simp [get_keys, flatten_kv]
  · intro k s0 rest ih pfx
    simp [get_keys, get_keys_val, flatten_kv, flatten_kv_val, ih pfx,
      ← Finset.insert_eq]
  · intro k sub rest ihsub ihrest pfx
    simp [get_keys, get_keys_val, flatten_kv, flatten_kv_val,
      ihsub (pfx ++ k ++ "."), ihrest pfx, List.toFinset_append]

theorem flatten_seg_shape (d : Obj) : ∀ e ∈ flatten_seg d,
    ∃ k1 r1, e.1 = k1 :: r1 ∧ k1 ∈ d.map Prod.fst := by
  refine @ObjInd (fun d => ∀ e ∈ flatten_seg d,
    ∃ k1 r1, e.1 = k1 :: r1 ∧ k1 ∈ d.map Prod.fst) ?_ ?_ ?_ d
  · intro e he
    simp [flatten_seg] at he
  · intro k s0 rest ih e he
    simp only [flatten_seg, flatten_seg_val, List.cons_append, List.mem_cons] at he
    rcases he with he | he
    · subst he
      exact ⟨k, [], rfl, by simp⟩
    · obtain ⟨k1, r1, h1, h2⟩ := ih e (by simpa using he)
      exact ⟨k1, r1, h1, by simp [h2]⟩
  · intro k sub rest ihsub ihrest e he
    simp only [flatten_seg, flatten_seg_val, List.mem_append, List.mem_map] at he
    rcases he with ⟨e2, _, he2⟩ | he
    · exact ⟨k, e2.1, by simp [← he2], by simp⟩
    · obtain ⟨k1, r1, h1, h2⟩ := ihrest e he
      exact ⟨k1, r1, h1, by simp [h2]⟩

theorem flatten_seg_ne_nil (d : Obj) : noEmptyObjB d = true → d ≠ [] →
    flatten_seg d ≠ [] := by
  refine @ObjInd (fun d => noEmptyObjB d = true → d ≠ [] →
    flatten_seg d ≠ []) ?_ ?_ ?_ d
  · intro _ h
    exact absurd rfl h
  · intro k s0 rest _ _ _
    simp [flatten_seg, flatten_seg_val]
  · intro k sub rest ihsub _ hne _
    cases sub with
    | nil => simp [noEmptyObjB, noEmptyObjValB] at hne
    | cons e2 sub2 =>
      obtain ⟨ka, va⟩ := e2
      simp only [noEmptyObjB, noEmptyObjValB, Bool.and_eq_true] at hne
      have hsub : noEmptyObjB ((ka, va) :: sub2) = true := by
        simp [noEmptyObjB, hne.1.1, hne.1.2]
      have h2 := ihsub hsub (by simp)
      simp only [flatten_seg, flatten_seg_val]
      intro hcon
      rcases List.append_eq_nil.mp hcon with ⟨hl, _⟩
      exact h2 (List.map_eq_nil_iff.mp hl)

theorem dotPfx_snoc (ps : List String) (k : String) :
    dotPfx (ps ++ [k]) = dotPfx ps ++ (k ++ ".") := by
  induction ps with
  | nil => simp [dotPfx]
  | cons p ps ih => simp [dotPfx, ih, String.append_assoc]

theorem flatten_kv_split (d : Obj) : noDotKeyB d = true → ∀ ps : List String,
    (∀ q ∈ ps, dotFree q = true) →
    (flatten_kv d (dotPfx ps)).map (fun e => (splitDot e.1, e.2)) =
    (flatten_seg d).map (fun e => (ps ++ e.1, e.2)) := by
  refine @ObjInd (fun d => noDotKeyB d = true → ∀ ps : List String,
    (∀ q ∈ ps, dotFree q = true) →
    (flatten_kv d (dotPfx ps)).map (fun e => (splitDot e.1, e.2)) =
    (flatten_seg d).map (fun e => (ps ++ e.1, e.2))) ?_ ?_ ?_ d
  · intro _ ps _
    simp [flatten_kv, flatten_seg]
  · intro k s0 rest ih hnd ps hps
    simp only [noDotKeyB, noDotKeyValB, Bool.and_eq_true] at hnd
    simp only [flatten_kv, flatten_kv_val, flatten_seg, flatten_seg_val,
      List.cons_append, List.map_cons, List.singleton_append, List.nil_append]
    rw [splitDot_dotPfx ps k hps hnd.1.1, ih hnd.2 ps hps]
  · intro k sub rest ihsub ihrest hnd ps hps
    simp only [noDotKeyB, noDotKeyValB, Bool.and_eq_true] at hnd
    simp only [flatten_kv, flatten_kv_val, flatten_seg, flatten_seg_val, List.map_append]
    have hps2 : ∀ q ∈ ps ++ [k], dotFree q = true := by
      intro q hq
      rcases List.mem_append.mp hq with hq | hq
      · exact hps q hq
      · simp at hq
        subst hq
        exact hnd.1.1
    have hpfx : dotPfx ps ++ k ++ "." = dotPfx (ps ++ [k]) := by
      rw [dotPfx_snoc, String.append_assoc]
    rw [hpfx, ihsub hnd.1.2 (ps ++ [k]) hps2, ihrest hnd.2 ps hps]
    simp [List.map_map, Function.comp]

/-! Fold lemmas for `applySeg` and the reconstruction of a tree from its
flattening. -/

theorem applySeg_nil (d : Obj) : applySeg d [] = some d := rfl

theorem applySeg_cons (d : Obj) (e : List String × Option String)
    (es : List (List String × Option String)) :
    applySeg d (e :: es) =
      (set_deep d e.1 (JVal.leaf e.2)).bind (fun d2 => applySeg d2 es) := rfl

theorem applySeg_append (es1 es2 : List (List String × Option String)) : ∀ (d : Obj),
    applySeg d (es1 ++ es2) = (applySeg d es1).bind (fun r => applySeg r es2) := by
  induction es1 with
  | nil => intro d; rfl
  | cons e es ih =>
    intro d
    rw [List.cons_append, applySeg_cons, applySeg_cons]
    cases set_deep d e.1 (JVal.leaf e.2) with
    | none => rfl
    | some r => simp [ih r]

theorem set_deep_cons_ne (k : String) (v : JVal) (d : Obj) (k1 : String) (r1 : List String)
    (w : JVal) (hne : k1 ≠ k) :
    set_deep ((k, v) :: d) (k1 :: r1) w = (set_deep d (k1 :: r1) w).map (fun r => (k, v) :: r) := by
  cases r1 with
  | nil => simp [set_deep, dictSet_cons_ne (k, v) d k1 w (Ne.symm hne)]
  | cons r2 rs =>
    have hget : dictGet ((k, v) :: d) k1 = dictGet d k1 :=
      dictGet_cons_ne (k, v) d k1 (Ne.symm hne)
    rcases hg : dictGet d k1 with _ | w2
    · simp only [set_deep, hget, hg]
      cases set_deep [] (r2 :: rs) w with
      | none => rfl
      | some s2 => simp [dictSet_cons_ne (k, v) d k1 (JVal.obj s2) (Ne.symm hne)]
    · cases w2 with
      | leaf s2 => simp [set_deep, hget, hg]
      | obj sub =>
        simp only [set_deep, hget, hg]
        cases set_deep sub (r2 :: rs) w with
        | none => rfl
        | some s2 => simp [dictSet_cons_ne (k, v) d k1 (JVal.obj s2) (Ne.symm hne)]

theorem applySeg_cons_entry (k : String) (v : JVal)
    (es : List (List String × Option String)) : ∀ (d : Obj),
    (∀ e ∈ es, ∃ k1 r1, e.1 = k1 :: r1 ∧ k1 ≠ k) →
    applySeg ((k, v) :: d) es = (applySeg d es).map (fun r => (k, v) :: r) := by
  induction es with
  | nil =>
    intro d _
    rfl
  | cons e es ih =>
    intro d hh
    obtain ⟨k1, r1, he1, hne⟩ := hh e (by simp)
    rw [applySeg_cons, applySeg_cons, he1, set_deep_cons_ne k v d k1 r1 _ hne]
    cases set_deep d (k1 :: r1) (JVal.leaf e.2) with
    | none => rfl
    | some r =>
      simp only [Option.map, Option.bind]
      exact ih r (fun e2 he2 => hh e2 (by simp [he2]))

theorem set_deep_from_nil (k : String) (p : List String) (w : JVal) (hp : p ≠ []) :
    set_deep [] (k :: p) w = (set_deep [] p w).map (fun r => [(k, JVal.obj r)]) := by
  obtain ⟨p1, ps, hp1⟩ := List.exists_cons_of_ne_nil hp
  subst hp1
  simp only [set_deep, dictGet]
  cases set_deep [] (p1 :: ps) w with
  | none => rfl
  | some r => simp [dictSet]

theorem applySeg_under_key (k : String) (es : List (List String × Option String)) :
    ∀ (s0 : Obj), (∀ e ∈ es, e.1 ≠ []) →
    applySeg [(k, JVal.obj s0)] (es.map (fun e => (k :: e.1, e.2))) =
    (applySeg s0 es).map (fun r => [(k, JVal.obj r)]) := by
  induction es with
  | nil =>
    intro s0 _
    rfl
  | cons e es ih =>
    intro s0 hne
    have he : e.1 ≠ [] := hne e (by simp)
    obtain ⟨p1, ps, hp⟩ := List.exists_cons_of_ne_nil he
    rw [List.map_cons, applySeg_cons, applySeg_cons]
    have hstep : set_deep [(k, JVal.obj s0)] (k :: e.1) (JVal.leaf e.2) =
        (set_deep s0 e.1 (JVal.leaf e.2)).map (fun r => [(k, JVal.obj r)]) := by
      rw [hp]
      rcases hy : set_deep s0 (p1 :: ps) (JVal.leaf e.2) with _ | r2
      · simp [set_deep, dictGet, hy]
      · simp [set_deep, dictGet, dictSet, hy]
    rw [hstep]
    cases hx : set_deep s0 e.1 (JVal.leaf e.2) with
    | none => rfl
    | some r =>
      simp only [Option.map, Option.bind]
      exact ih r (fun e2 he2 => hne e2 (by simp [he2]))

theorem contains_false_not_mem (l : List String) (k : String)
    (h : l.contains k = false) : k ∉ l := by
  intro hm
  have h2 : l.contains k = true := List.elem_iff.mpr hm
  rw [h2] at h
  simp at h

theorem applySeg_flatten_seg (d : Obj) : nodupKeysB d = true → noEmptyObjB d = true →
    applySeg [] (flatten_seg d) = some d := by
  refine @ObjInd (fun d => nodupKeysB d = true → noEmptyObjB d = true →
    applySeg [] (flatten_seg d) = some d) ?_ ?_ ?_ d
  · intro _ _
    rfl
  · intro k s0 rest ih hnd hne
    simp only [nodupKeysB, Bool.and_eq_true, Bool.not_eq_true'] at hnd
    obtain ⟨⟨hnd1, _⟩, hnd3⟩ := hnd
    simp only [noEmptyObjB, Bool.and_eq_true] at hne
    obtain ⟨_, hne2⟩ := hne
    have hheads : ∀ e ∈ flatten_seg rest, ∃ k1 r1, e.1 = k1 :: r1 ∧ k1 ≠ k := by
      intro e he
      obtain ⟨k1, r1, h1, h2⟩ := flatten_seg_shape rest e he
      refine ⟨k1, r1, h1, ?_⟩
      intro hq
      subst hq
      exact contains_false_not_mem _ k1 hnd1 h2
    rw [show flatten_seg ((k, JVal.leaf s0) :: rest) = ([k], s0) :: flatten_seg rest from rfl]
    rw [applySeg_cons]
    rw [show set_deep [] [k] (JVal.leaf s0) = some [(k, JVal.leaf s0)] from rfl]
    show applySeg [(k, JVal.leaf s0)] (flatten_seg rest) = _
    rw [applySeg_cons_entry k (JVal.leaf s0) (flatten_seg rest) [] hheads, ih hnd3 hne2]
    rfl
  · intro k sub rest ihsub ihrest hnd hne
    simp only [nodupKeysB, Bool.and_eq_true, Bool.not_eq_true'] at hnd
    obtain ⟨⟨hnd1, hnd2⟩, hnd3⟩ := hnd
    simp only [noEmptyObjB, Bool.and_eq_true] at hne
    obtain ⟨hne1, hne2⟩ := hne
    have hsubne : sub ≠ [] := by
      intro h0
      subst h0
      simp [noEmptyObjValB] at hne1
    have hnes : noEmptyObjB sub = true := by
      cases sub with
      | nil => exact absurd rfl hsubne
      | cons e2 s2 => exact hne1
    have hnds : nodupKeysB sub = true := hnd2
    have hfs := flatten_seg_ne_nil sub hnes hsubne
    obtain ⟨e0, es', hfl⟩ := List.exists_cons_of_ne_nil hfs
    have hsub := ihsub hnds hnes
    rw [hfl, applySeg_cons] at hsub
    have hpne : ∀ e ∈ flatten_seg sub, e.1 ≠ [] := by
      intro e he
      obtain ⟨k1, r1, h1, _⟩ := flatten_seg_shape sub e he
      simp [h1]
    have he0ne : e0.1 ≠ [] := hpne e0 (by rw [hfl]; simp)
    rcases hx : set_deep [] e0.1 (JVal.leaf e0.2) with _ | s1
    · rw [hx] at hsub
      simp at hsub
    · rw [hx] at hsub
      have hsub2 : applySeg s1 es' = some sub := hsub
      rw [show flatten_seg ((k, JVal.obj sub) :: rest) =
        (flatten_seg sub).map (fun e => (k :: e.1, e.2)) ++ flatten_seg rest from rfl]
      rw [applySeg_append]
      rw [hfl, List.map_cons, applySeg_cons]
      have h1 : set_deep [] (k :: e0.1) (JVal.leaf e0.2) = some [(k, JVal.obj s1)] := by
        rw [set_deep_from_nil k e0.1 _ he0ne, hx]
        rfl
      rw [h1]
      have hes'ne : ∀ e ∈ es', e.1 ≠ [] := by
        intro e he
        exact hpne e (by rw [hfl]; simp [he])
      have h2 : applySeg [(k, JVal.obj s1)] (es'.map (fun e => (k :: e.1, e.2))) =
          some [(k, JVal.obj sub)] := by
        rw [applySeg_under_key k es' s1 hes'ne, hsub2]
        rfl
      show (applySeg [(k, JVal.obj s1)] (es'.map (fun e => (k :: e.1, e.2)))).bind
        (fun r => applySeg r (flatten_seg rest)) = _
      rw [h2]
      show applySeg [(k, JVal.obj sub)] (flatten_seg rest) = _
      have hheads : ∀ e ∈ flatten_seg rest, ∃ k1 r1, e.1 = k1 :: r1 ∧ k1 ≠ k := by
        intro e he
        obtain ⟨k1, r1, hh1, hh2⟩ := flatten_seg_shape rest e he
        refine ⟨k1, r1, hh1, ?_⟩
        intro hq
        subst hq
        exact contains_false_not_mem _ k1 hnd1 hh2
      rw [applySeg_cons_entry k (JVal.obj sub) (flatten_seg rest) [] hheads, ihrest hnd3 hne2]
      rfl

theorem rebuild_eq_applySeg (es : List (String × Option String)) :
    rebuild es = applySeg [] (es.map (fun e => (splitDot e.1, e.2))) := by
  suffices h : ∀ d : Obj, es.foldlM (fun d2 e => set_deep d2 (splitDot e.1) (JVal.leaf e.2)) d =
      applySeg d (es.map (fun e => (splitDot e.1, e.2))) from h []
  induction es with
  | nil =>
    intro d
    rfl
  | cons e es ih =>
    intro d
    rw [List.map_cons, applySeg_cons]
    show (set_deep d (splitDot e.1) (JVal.leaf e.2)).bind _ = _
    cases set_deep d (splitDot e.1) (JVal.leaf e.2) with
    | none => rfl
    | some r => exact ih r

theorem flatten_kv_split_nil (t : Obj) (h : noDotKeyB t = true) :
    (flatten_kv t "").map (fun e => (splitDot e.1, e.2)) = flatten_seg t := by
  have h2 := flatten_kv_split t h [] (by simp)
  simpa using h2

theorem rebuild_flatten (t : Obj) (hnd : nodupKeysB t = true) (hne : noEmptyObjB t = true)
    (hdot : noDotKeyB t = true) : rebuild (flatten_kv t "") = some t := by
  rw [rebuild_eq_applySeg, flatten_kv_split_nil t hdot]
  exact applySeg_flatten_seg t hnd hne

/-! Applying lists of divergent-path assignments: frame, reads, totality,
idempotence. -/

theorem get_deep_applySeg_frame (es : List (List String × Option String)) :
    ∀ (d r : Obj) (q : List String),
    (∀ e ∈ es, ¬ e.1 <+: q ∧ ¬ q <+: e.1) → applySeg d es = some r →
    get_deep r q = get_deep d q := by
  induction es with
  | nil =>
    intro d r q _ h
    rw [applySeg_nil] at h
    simp at h
    rw [h]
  | cons e es ih =>
    intro d r q hdiv h
    rw [applySeg_cons] at h
    rcases hx : set_deep d e.1 (JVal.leaf e.2) with _ | d1
    · rw [hx] at h
      simp at h
    · rw [hx] at h
      have h2 : applySeg d1 es = some r := h
      have hd := hdiv e (by simp)
      rw [ih d1 r q (fun e2 he2 => hdiv e2 (by simp [he2])) h2]
      exact set_deep_frame e.1 d (JVal.leaf e.2) d1 q hx hd.1 hd.2

theorem applySeg_get_deep (es : List (List String × Option String)) :
    ∀ (d r : Obj),
    List.Pairwise (fun a b => ¬ a.1 <+: b.1 ∧ ¬ b.1 <+: a.1) es →
    applySeg d es = some r →
    ∀ e ∈ es, get_deep r e.1 = some (JVal.leaf e.2) := by
  induction es with
  | nil =>
    intro d r _ _ e he
    simp at he
  | cons e0 es ih =>
    intro d r hpw h e he
    rw [applySeg_cons] at h
    rcases hx : set_deep d e0.1 (JVal.leaf e0.2) with _ | d1
    · rw [hx] at h
      simp at h
    · rw [hx] at h
      have h2 : applySeg d1 es = some r := h
      rcases List.pairwise_cons.mp hpw with ⟨hhead, htail⟩
      rcases List.mem_cons.mp he with he0 | hes
      · subst he0
        have hframe := get_deep_applySeg_frame es d1 r e.1
          (fun e2 he2 => ⟨(hhead e2 he2).2, (hhead e2 he2).1⟩) h2
        rw [hframe]
        exact set_get d e.1 (JVal.leaf e.2) d1 hx
      · exact ih d1 r htail h2 e hes

theorem applySeg_fixed (es : List (List String × Option String)) : ∀ (r : Obj),
    (∀ e ∈ es, get_deep r e.1 = some (JVal.leaf e.2)) →
    applySeg r es = some r := by
  induction es with
  | nil =>
    intro r _
    rfl
  | cons e es ih =>
    intro r hget
    rw [applySeg_cons, set_deep_already r e.1 (JVal.leaf e.2) (hget e (by simp))]
    show applySeg r es = some r
    exact ih r (fun e2 he2 => hget e2 (by simp [he2]))

theorem applySeg_idem (es : List (List String × Option String)) (d r : Obj)
    (hpw : List.Pairwise (fun a b => ¬ a.1 <+: b.1 ∧ ¬ b.1 <+: a.1) es)
    (h : applySeg d es = some r) : applySeg r es = some r :=
  applySeg_fixed es r (applySeg_get_deep es d r hpw h)

theorem applySeg_total (es : List (List String × Option String)) : ∀ (d : Obj),
    (∀ e ∈ es, e.1 ≠ [] ∧ pathClearB d e.1 = true) →
    List.Pairwise (fun a b => ¬ a.1 <+: b.1) es →
    ∃ r, applySeg d es = some r := by
  induction es with
  | nil =>
    intro d _ _
    exact ⟨d, rfl⟩
  | cons e es ih =>
    intro d hc hpw
    obtain ⟨hne, hcl⟩ := hc e (by simp)
    have hs := set_deep_isSome e.1 d (JVal.leaf e.2) hne hcl
    rcases hx : set_deep d e.1 (JVal.leaf e.2) with _ | d1
    · rw [hx] at hs
      simp at hs
    · rcases List.pairwise_cons.mp hpw with ⟨hhead, htail⟩
      have hc2 : ∀ e2 ∈ es, e2.1 ≠ [] ∧ pathClearB d1 e2.1 = true := by
        intro e2 he2
        obtain ⟨hne2, hcl2⟩ := hc e2 (by simp [he2])
        refine ⟨hne2, ?_⟩
        exact pathClear_preserve e.1 d (JVal.leaf e.2) d1 e2.1 hcl2 hx
          (fun hpre => absurd hpre (hhead e2 he2))
      obtain ⟨r, hr⟩ := ih d1 hc2 htail
      refine ⟨r, ?_⟩
      rw [applySeg_cons, hx]
      exact hr

theorem isLeafAt_applySeg (es : List (List String × Option String)) :
    ∀ (d b : Obj) (segs : List String) (s : Option String),
    applySeg d es = some b → IsLeafAt b segs s →
    IsLeafAt d segs s ∨ ∃ e ∈ es, segs = e.1 ∧ s = e.2 := by
  induction es with
  | nil =>
    intro d b segs s h hl
    rw [applySeg_nil] at h
    simp at h
    subst h
    exact Or.inl hl
  | cons e es ih =>
    intro d b segs s h hl
    rw [applySeg_cons] at h
    rcases hx : set_deep d e.1 (JVal.leaf e.2) with _ | d1
    · rw [hx] at h
      simp at h
    · rw [hx] at h
      have h2 : applySeg d1 es = some b := h
      rcases ih d1 b segs s h2 hl with h3 | ⟨e2, he2, h4⟩
      · rcases isLeafAt_set_deep e.1 d e.2 d1 segs s hx h3 with h5 | ⟨h5, h6⟩
        · exact Or.inl h5
        · exact Or.inr ⟨e, by simp, h5, h6⟩
      · exact Or.inr ⟨e2, by simp [he2], h4⟩

theorem rebuild_exact (es : List (String × Option String))
    (hpw : List.Pairwise
      (fun a b => ¬ splitDot a.1 <+: splitDot b.1 ∧ ¬ splitDot b.1 <+: splitDot a.1) es) :
    ∃ b, rebuild es = some b ∧
      get_keys b "" = (es.map Prod.fst).toFinset ∧
      ∀ e ∈ es, get_deep b (splitDot e.1) = some (JVal.leaf e.2) := by
  have hpw2 : List.Pairwise (fun a b => ¬ a.1 <+: b.1 ∧ ¬ b.1 <+: a.1)
      (es.map (fun e => (splitDot e.1, e.2))) := by
    exact (List.pairwise_map).mpr hpw
  have htot : ∃ r, applySeg [] (es.map (fun e => (splitDot e.1, e.2))) = some r := by
    apply applySeg_total _ []
    · intro e he
      obtain ⟨e0, _, he0eq⟩ := List.mem_map.mp he
      refine ⟨?_, pathClear_nil_tree _⟩
      rw [← he0eq]
      exact splitDot_ne_nil e0.1
    · exact hpw2.imp (fun h => h.1)
  obtain ⟨b, hb⟩ := htot
  have hget : ∀ e ∈ es.map (fun e => (splitDot e.1, e.2)),
      get_deep b e.1 = some (JVal.leaf e.2) :=
    applySeg_get_deep _ [] b hpw2 hb
  refine ⟨b, ?_, ?_, ?_⟩
  · rw [rebuild_eq_applySeg]
    exact hb
  · ext p
    rw [mem_get_keys b "" p]
    constructor
    · rintro ⟨segs, s, hl, hp⟩
      rcases isLeafAt_applySeg _ [] b segs s hb hl with h3 | ⟨e2, he2, h4, h5⟩
      · exact (isLeafAt_nil segs s h3).elim
      · obtain ⟨e0, he0, he0eq⟩ := List.mem_map.mp he2
        rw [List.mem_toFinset, List.mem_map]
        refine ⟨e0, he0, ?_⟩
        rw [hp, h4, ← he0eq]
        show e0.1 = "" ++ joinDot (splitDot e0.1)
        rw [joinDot_splitDot]
        exact (String.empty_append e0.1).symm
    · intro hp
      rw [List.mem_toFinset, List.mem_map] at hp
      obtain ⟨e0, he0, hpe⟩ := hp
      have hmem : (splitDot e0.1, e0.2) ∈ es.map (fun e => (splitDot e.1, e.2)) :=
        List.mem_map_of_mem _ he0
      have hg := hget _ hmem
      have hleaf := isLeafAt_of_get_deep (splitDot e0.1) b e0.2 hg
      refine ⟨splitDot e0.1, e0.2, hleaf, ?_⟩
      rw [← hpe, joinDot_splitDot]
      exact (String.empty_append e0.1).symm
  · intro e he
    exact hget (splitDot e.1, e.2) (List.mem_map_of_mem _ he)

/-! The merger's fixed table: its split key paths are pairwise divergent. -/

theorem update_tree_eq_applySeg (lang : String) (d : Obj) :
    update_tree lang d =
      applySeg d (new_keys_flat.map (fun e => (splitDot e.1, tr_get e.2 lang))) := by
  show new_keys_flat.foldlM (apply_entry lang) d = _
  suffices h : ∀ (es : List (String × List (String × String))) (d : Obj),
      es.foldlM (apply_entry lang) d =
        applySeg d (es.map (fun e => (splitDot e.1, tr_get e.2 lang))) from
    h new_keys_flat d
  intro es
  induction es with
  | nil =>
    intro d
    rfl
  | cons e es ih =>
    intro d
    rw [List.map_cons, applySeg_cons]
    show (apply_entry lang d e).bind _ = _
    rw [show apply_entry lang d e =
      set_deep d (splitDot e.1) (JVal.leaf (tr_get e.2 lang)) from rfl]
    cases set_deep d (splitDot e.1) (JVal.leaf (tr_get e.2 lang)) with
    | none => rfl
    | some r => exact ih r

theorem table_paths_pairwise :
    List.Pairwise (fun a b => ¬ splitDot a.1 <+: splitDot b.1 ∧
      ¬ splitDot b.1 <+: splitDot a.1) new_keys_flat := by
  decide

/-! The claims. -/

/-- C1 counterexample: the round-trip law fails as stated.  The locale
tree `{"a": {}}` (an empty submapping, exactly the target tree of the
spec's own Scenario 1) flattens to the empty path set, so rebuilding from
the flattening yields the empty tree, not the original tree. -/
theorem roundtrip_counterexample :
    rebuild (flatten_kv [("a", JVal.obj [])] "") ≠ some [("a", JVal.obj [])] := by
  rw [show rebuild (flatten_kv [("a", JVal.obj [])] "") = some [] from rfl]
  simp

/-- C1 (amended): `get_keys` is the path part of value-carrying
flattening; flattening then rebuilding by `set_deep` over an empty
mapping reproduces every tree whose keys are duplicate-free at each
level, contain no `.`, and whose submappings are all non-empty; and
conversely building from scratch for entries whose split dotted paths
are pairwise divergent yields a tree that flattens to exactly the set of
paths set, each mapping to its assigned leaf value. -/
theorem roundtrip_amended :
    (∀ (d : Obj) (pfx : String),
      get_keys d pfx = ((flatten_kv d pfx).map Prod.fst).toFinset) ∧
    (∀ t : Obj, nodupKeysB t = true → noEmptyObjB t = true → noDotKeyB t = true →
      rebuild (flatten_kv t "") = some t) ∧
    (∀ es : List (String × Option String),
      List.Pairwise (fun a b => ¬ splitDot a.1 <+: splitDot b.1 ∧
        ¬ splitDot b.1 <+: splitDot a.1) es →
      ∃ b, rebuild es = some b ∧ get_keys b "" = (es.map Prod.fst).toFinset ∧
        ∀ e ∈ es, get_deep b (splitDot e.1) = some (JVal.leaf e.2)) :=
  ⟨get_keys_eq_flatten_kv, rebuild_flatten, rebuild_exact⟩

/-- C1 witness: both amended directions at concrete inputs. -/
theorem roundtrip_amended_witness :
    rebuild (flatten_kv [("a", JVal.obj [("b", JVal.leaf (some "1"))]),
        ("c", JVal.leaf (some "2"))] "") =
      some [("a", JVal.obj [("b", JVal.leaf (some "1"))]), ("c", JVal.leaf (some "2"))] ∧
    (∃ b, rebuild [("x.y", some "1"), ("z", some "2")] = some b ∧
      get_keys b "" = ({"x.y", "z"} : Finset String) ∧
      ∀ e ∈ [("x.y", some "1"), ("z", (some "2" : Option String))],
        get_deep b (splitDot e.1) = some (JVal.leaf e.2)) := by
  constructor
  · exact roundtrip_amended.2.1 _ rfl rfl rfl
  · obtain ⟨b, h1, h2, h3⟩ := roundtrip_amended.2.2 [("x.y", some "1"), ("z", some "2")]
      (by decide)
    exact ⟨b, h1, by simpa using h2, h3⟩

/-- C2: `get_keys` returns exactly the dotted paths of the tree's
leaves: a path is in the result precisely when it is the `.`-join of the
segment path of a leaf prefixed with the accumulated prefix; nested
submappings are only recursed into, and the empty tree flattens to the
empty set. -/
theorem get_keys_spec :
    (∀ (d : Obj) (pfx p : String),
      p ∈ get_keys d pfx ↔ ∃ segs s, IsLeafAt d segs s ∧ p = pfx ++ joinDot segs) ∧
    get_keys [] "" = ∅ :=
  ⟨fun d pfx p => mem_get_keys d pfx p, rfl⟩

/-- C3: `report_missing` reports exactly `reference_keys \ target_keys`,
sorted ascending, with its count; keys present only in the target are
never reported. -/
theorem report_missing_spec (target_keys reference_keys : Finset String) :
    (report_missing target_keys reference_keys).1 =
      (reference_keys \ target_keys).card ∧
    (∀ k, k ∈ (report_missing target_keys reference_keys).2 ↔
      k ∈ reference_keys ∧ k ∉ target_keys) ∧
    List.Sorted (· ≤ ·) (report_missing target_keys reference_keys).2 ∧
    (report_missing target_keys reference_keys).2.length =
      (reference_keys \ target_keys).card ∧
    (∀ k, k ∈ target_keys → k ∉ reference_keys →
      k ∉ (report_missing target_keys reference_keys).2) := by
  refine ⟨rfl, ?_, Finset.sort_sorted _ _, Finset.length_sort _, ?_⟩
  · intro k
    show k ∈ (reference_keys \ target_keys).sort (· ≤ ·) ↔ _
    rw [Finset.mem_sort, Finset.mem_sdiff]
  · intro k hkt hkr hmem
    rw [show (report_missing target_keys reference_keys).2 =
      (reference_keys \ target_keys).sort (· ≤ ·) from rfl, Finset.mem_sort,
      Finset.mem_sdiff] at hmem
    exact hkr hmem.1

/-- C3 witness: Scenario 1 of the spec, reference tree
`{"a": {"b": "1"}, "c": "2"}` against target tree `{"a": {}}`:
`"a.b"` is reported missing. -/
theorem report_missing_spec_witness :
    "a.b" ∈ (report_missing (get_keys [("a", JVal.obj [])] "")
      (get_keys [("a", JVal.obj [("b", JVal.leaf (some "1"))]),
        ("c", JVal.leaf (some "2"))] "")).2 :=
  ((report_missing_spec _ _).2.1 "a.b").mpr ⟨by decide, by decide⟩

/-- C4: on a clear walk (every already-present non-final segment bound
to a submapping), `set_deep` succeeds and the value is afterwards read
back at the full path, regardless of what was previously at the final
key; and the entry `x.y` with value `嗨` on the empty tree produces
`{"x": {"y": "嗨"}}`. -/
theorem set_deep_contract :
    (∀ (d : Obj) (segs : List String) (v : JVal), segs ≠ [] →
      pathClearB d segs = true →
      ∃ d', set_deep d segs v = some d' ∧ get_deep d' segs = some v) ∧
    set_deep [] (splitDot "x.y") (JVal.leaf (some "嗨")) =
      some [("x", JVal.obj [("y", JVal.leaf (some "嗨"))])] := by
  constructor
  · intro d segs v hne hc
    have hs := set_deep_isSome segs d v hne hc
    rcases hx : set_deep d segs v with _ | d'
    · rw [hx] at hs
      simp at hs
    · exact ⟨d', rfl, set_get d segs v d' hx⟩
  · rfl

/-- C4 witness: overwriting an existing leaf at the final key. -/
theorem set_deep_contract_witness :
    ∃ d', set_deep [("a", JVal.leaf (some "0"))] ["a"] (JVal.leaf (some "1")) = some d' ∧
      get_deep d' ["a"] = some (JVal.leaf (some "1")) :=
  set_deep_contract.1 [("a", JVal.leaf (some "0"))] ["a"] (JVal.leaf (some "1"))
    (by simp) rfl

/-- C5: when an entry lacks a value for the requested language but has
one for `en`, the merge step deep-sets the `en` value at the entry's
split path, with no error; Scenario 3 is the instance `vi` with entry
`{"x.y": {"en": "Hi", "zh": "嗨"}}`. -/
theorem fallback_law :
    (∀ (key : String) (tr : List (String × String)) (lang : String) (d : Obj)
      (e : String), dictGet tr lang = none → dictGet tr "en" = some e →
      pathClearB d (splitDot key) = true →
      ∃ d', apply_entry lang d (key, tr) = some d' ∧
        get_deep d' (splitDot key) = some (JVal.leaf (some e))) ∧
    apply_entry "vi" [] ("x.y", [("en", "Hi"), ("zh", "嗨")]) =
      some [("x", JVal.obj [("y", JVal.leaf (some "Hi"))])] := by
  constructor
  · intro key tr lang d e h1 h2 hc
    have htr : tr_get tr lang = some e := by simp [tr_get, h1, h2]
    rw [show apply_entry lang d (key, tr) =
      set_deep d (splitDot key) (JVal.leaf (tr_get tr lang)) from rfl, htr]
    have hne := splitDot_ne_nil key
    have hs := set_deep_isSome (splitDot key) d (JVal.leaf (some e)) hne hc
    rcases hx : set_deep d (splitDot key) (JVal.leaf (some e)) with _ | d'
    · rw [hx] at hs
      simp at hs
    · exact ⟨d', rfl, set_get _ _ _ _ hx⟩
  · rfl

/-- C5 witness: the fallback instance of Scenario 3. -/
theorem fallback_law_witness :
    ∃ d', apply_entry "vi" [] ("x.y", [("en", "Hi"), ("zh", "嗨")]) = some d' ∧
      get_deep d' (splitDot "x.y") = some (JVal.leaf (some "Hi")) :=
  fallback_law.1 "x.y" [("en", "Hi"), ("zh", "嗨")] "vi" [] "Hi" rfl rfl rfl

/-- C6: repeating `set_deep` with the same path and value is the
identity on the result of the first application, and applying the
merger's entire fixed entry table twice to a tree gives the same final
tree as applying it once. -/
theorem set_deep_and_table_idempotent :
    (∀ (d : Obj) (p : List String) (v : JVal) (d' : Obj),
      set_deep d p v = some d' → set_deep d' p v = some d') ∧
    (∀ (lang : String) (d r : Obj),
      update_tree lang d = some r → update_tree lang r = some r) := by
  constructor
  · intro d p v d' h
    exact set_deep_already d' p v (set_get d p v d' h)
  · intro lang d r h
    rw [update_tree_eq_applySeg] at h ⊢
    refine applySeg_idem _ d r ?_ h
    exact (List.pairwise_map).mpr table_paths_pairwise

/-- C6 witness: a repeated `set_deep` and a full double application of
the table for `zh` starting from the empty tree. -/
theorem set_deep_and_table_idempotent_witness :
    set_deep [("a", JVal.leaf (some "1"))] ["a"] (JVal.leaf (some "1")) =
      some [("a", JVal.leaf (some "1"))] ∧
    ∃ r, update_tree "zh" [] = some r ∧ update_tree "zh" r = some r := by
  constructor
  · exact set_deep_and_table_idempotent.1 [("a", JVal.leaf (some "0"))] ["a"]
      (JVal.leaf (some "1")) [("a", JVal.leaf (some "1"))] rfl
  · have hcond : ∀ e ∈ new_keys_flat.map (fun e => (splitDot e.1, tr_get e.2 "zh")),
        e.1 ≠ [] ∧ pathClearB [] e.1 = true := by
      intro e he
      obtain ⟨e0, _, he0eq⟩ := List.mem_map.mp he
      refine ⟨?_, pathClear_nil_tree _⟩
      rw [← he0eq]
      exact splitDot_ne_nil e0.1
    have hpw0 : List.Pairwise
        (fun (a b : String × List (String × String)) => ¬ splitDot a.1 <+: splitDot b.1)
        new_keys_flat := table_paths_pairwise.imp (fun h => h.1)
    have hpw : List.Pairwise (fun (a b : List String × Option String) => ¬ a.1 <+: b.1)
        (new_keys_flat.map (fun e => (splitDot e.1, tr_get e.2 "zh"))) :=
      (List.pairwise_map).mpr hpw0
    obtain ⟨r, hr⟩ := applySeg_total
      (new_keys_flat.map (fun e => (splitDot e.1, tr_get e.2 "zh"))) [] hcond hpw
    rw [← update_tree_eq_applySeg] at hr
    exact ⟨r, hr, set_deep_and_table_idempotent.2 "zh" [] r hr⟩

/-- C7: a supported language whose locale file is absent is skipped by
the merger: its iteration returns the disk unchanged (no file created,
no error) and the language loop continues with the remaining
languages. -/
theorem skip_missing_locale (disk : Disk) (lang : String) (rest : List String)
    (_hmem : lang ∈ langs) (habs : dictGet disk (locale_path lang) = none) :
    process_lang disk lang = Except.ok disk ∧
    List.foldlM process_lang disk (lang :: rest) = List.foldlM process_lang disk rest := by
  have h1 : process_lang disk lang = Except.ok disk := by
    simp [process_lang, habs]
  refine ⟨h1, ?_⟩
  rw [show List.foldlM process_lang disk (lang :: rest) =
    (process_lang disk lang) >>= (fun d2 => List.foldlM process_lang d2 rest) from rfl, h1]
  rfl

/-- C7 witness: the empty disk with language `en`. -/
theorem skip_missing_locale_witness :
    process_lang [] "en" = Except.ok [] ∧
    List.foldlM process_lang [] ["en"] = List.foldlM process_lang ([] : Disk) [] :=
  skip_missing_locale [] "en" [] (by decide) rfl

/-- C8: for the differencer a missing locale file of any supported
language is fatal: the run of `compare_main` ends in a raised error, and
no existence check softens it, in contrast with the merger's
`process_lang`, which returns the disk unchanged for the same
situation. -/
theorem differencer_missing_file_fatal (disk : Disk) (lang : String)
    (hmem : lang ∈ langs) (habs : dictGet disk (locale_path lang) = none) :
    (∃ e, compare_main disk = Except.error e) ∧
    process_lang disk lang = Except.ok disk := by
  have herr : ∀ path, dictGet disk path = none →
      load_json disk path = Except.error (RunErr.fileNotFound path) := by
    intro path h
    simp [load_json, h]
  refine ⟨?_, by simp [process_lang, habs]⟩
  simp only [langs, List.mem_cons, List.not_mem_nil, or_false] at hmem
  rcases hmem with h | h | h | h
  · subst h
    exact ⟨RunErr.fileNotFound (locale_path "en"), by
      unfold compare_main
      rw [herr _ habs]
      rfl⟩
  · subst h
    rcases h1 : load_json disk (locale_path "en") with e1 | en
    · exact ⟨e1, by
        unfold compare_main
        rw [h1]
        rfl⟩
    · exact ⟨RunErr.fileNotFound (locale_path "zh"), by
        unfold compare_main
        rw [h1, herr _ habs]
        rfl⟩
  · subst h
    rcases h1 : load_json disk (locale_path "en") with e1 | en
    · exact ⟨e1, by
        unfold compare_main
        rw [h1]
        rfl⟩
    · rcases h2 : load_json disk (locale_path "zh") with e2 | zh
      · exact ⟨e2, by
          unfold compare_main
          rw [h1, h2]
          rfl⟩
      · exact ⟨RunErr.fileNotFound (locale_path "vi"), by
          unfold compare_main
          rw [h1, h2, herr _ habs]
          rfl⟩
  · subst h
    rcases h1 : load_json disk (locale_path "en") with e1 | en
    · exact ⟨e1, by
        unfold compare_main
        rw [h1]
        rfl⟩
    · rcases h2 : load_json disk (locale_path "zh") with e2 | zh
      · exact ⟨e2, by
          unfold compare_main
          rw [h1, h2]
          rfl⟩
      · rcases h3 : load_json disk (locale_path "vi") with e3 | vi
        · exact ⟨e3, by
            unfold compare_main
            rw [h1, h2, h3]
            rfl⟩
        · exact ⟨RunErr.fileNotFound (locale_path "mn"), by
            unfold compare_main
            rw [h1, h2, h3, herr _ habs]
            rfl⟩

/-- C8 witness: the empty disk, language `en`. -/
theorem differencer_missing_file_fatal_witness :
    (∃ e, compare_main [] = Except.error e) ∧ process_lang [] "en" = Except.ok [] :=
  differencer_missing_file_fatal [] "en" (by decide) rfl

/-- C9: `set_deep` is total exactly on clear walks: it succeeds whenever
every already-present non-final segment is bound to a submapping, and it
raises (returns `none`) whenever some proper prefix of the path is bound
to a leaf, instead of replacing the leaf with a submapping. -/
theorem set_deep_precondition (d : Obj) (segs : List String) (v : JVal)
    (hne : segs ≠ []) :
    (pathClearB d segs = true → (set_deep d segs v).isSome = true) ∧
    (∀ p s, p <+: segs → p ≠ segs → get_deep d p = some (JVal.leaf s) →
      set_deep d segs v = none) := by
  constructor
  · exact set_deep_isSome segs d v hne
  · intro p s hpre hnep hget
    exact set_deep_none_of_not_clear segs d v
      (not_clear_of_leaf_on_path p d segs s hpre hnep hget)

/-- C9 witness: descending through the leaf `"a"` fails. -/
theorem set_deep_precondition_witness :
    set_deep [("a", JVal.leaf (some "x"))] ["a", "b"] (JVal.leaf (some "y")) = none :=
  (set_deep_precondition [("a", JVal.leaf (some "x"))] ["a", "b"]
    (JVal.leaf (some "y")) (by simp)).2 ["a"] (some "x") (by decide) (by decide) rfl

/-- C10: `set_deep` changes nothing off its path: reading any path that
diverges from the written path (neither is a prefix of the other) gives
the same result before and after the write, so every sibling subtree is
untouched. -/
theorem set_deep_frame_property (d : Obj) (p : List String) (v : JVal) (d' : Obj)
    (q : List String) (h : set_deep d p v = some d') (h1 : ¬ p <+: q)
    (h2 : ¬ q <+: p) : get_deep d' q = get_deep d q :=
  set_deep_frame p d v d' q h h1 h2

/-- C10 witness: writing `a` leaves the sibling subtree `b.c` unchanged. -/
theorem set_deep_frame_property_witness :
    get_deep [("a", JVal.leaf (some "9")), ("b", JVal.obj [("c", JVal.leaf (some "2"))])]
      ["b", "c"] =
    get_deep [("a", JVal.leaf (some "1")), ("b", JVal.obj [("c", JVal.leaf (some "2"))])]
      ["b", "c"] :=
  set_deep_frame_property
    [("a", JVal.leaf (some "1")), ("b", JVal.obj [("c", JVal.leaf (some "2"))])]
    ["a"] (JVal.leaf (some "9"))
    [("a", JVal.leaf (some "9")), ("b", JVal.obj [("c", JVal.leaf (some "2"))])]
    ["b", "c"] rfl (by decide) (by decide)
